import Mathlib

/-!
Verification development for the memkind hot-allocation proof of concept
(tiered-memory allocator policy engine).

Shallow embedding conventions:
* C doubles (hotness, frequencies, weights, ratios) are modelled as rationals.
* C size_t / uint64_t values are naturals; where the C code can wrap,
  arithmetic is taken modulo 2^64 explicitly (mod64, sub64).
* The weight-ranked tree (wre_avl_tree) is not part of the provided sources
  (only its header is referenced), so it is modelled from the specification,
  section 4.2, as an association list ordered hottest-first: the in-order
  traversal of the AVL tree under the is_hotter_agg_hot comparator.
  Balancing is a performance property and does not affect the values
  computed, which is what the claims are about.
* The ranking operations (ranking.cpp) are translated statement by statement
  from the source; state mutation becomes explicit state passing.
-/

/-- Wrap-around bound of size_t / uint64_t arithmetic: 2^64, written as a
numeral so that kernel evaluation of modular arithmetic is fast. -/
def U64 : ℕ := 18446744073709551616

theorem U64_eq_pow : U64 = 2 ^ 64 := by norm_num [U64]

/-- Reduction modulo 2^64, the effect of size_t addition overflow. -/
def mod64 (a : ℕ) : ℕ := a % U64

/-- Unsigned 64-bit subtraction: a - b computed in uint64_t arithmetic. -/
def sub64 (a b : ℕ) : ℕ := (a + (U64 - b % U64)) % U64

/-- HOTNESS_MEASURE_WINDOW from the sources: 1000000000ULL. -/
def HOTNESS_MEASURE_WINDOW : ℕ := 1000000000

/-- AggregatedHotness payload of a ranking tree node: an aggregated size
bucketed under a quantified hotness.  With quantification disabled (the
default compile configuration, pinned by the ranking tests) the quantified
hotness is the raw double hotness, modelled as a rational. -/
structure AggregatedHotness where
  size : ℕ
  quantifiedHotness : ℚ
deriving DecidableEq, Repr

/-- The weight-ranked tree, modelled by its in-order node list under the
is_hotter_agg_hot comparator: hottest (largest quantified hotness) first.
The node weight always equals the stored aggregated size, as every wre_put
in the ranking passes value.size as the weight. -/
abbrev WreTree := List AggregatedHotness

/-- Sum of the aggregated sizes of all nodes; the total weight of the tree
(root subtreeWeight), as summed by wre_calculate_subtree_size. -/
def wre_total_weight (t : WreTree) : ℕ := (t.map (fun e => e.size)).sum

/-- Modelled from the spec: wre tree lookup by key (the search performed by
wre_remove before detaching a node); returns the aggregated size stored under
the given quantified hotness. -/
def wre_lookup (t : WreTree) (q : ℚ) : Option ℕ :=
  match t with
  | [] => none
  | x :: xs => if x.quantifiedHotness = q then some x.size else wre_lookup xs q

/-- Modelled from the spec: remove-by-key of the wre tree (section 4.2);
returns the removed payload (if any) and the remaining tree. -/
def wre_remove (t : WreTree) (q : ℚ) : Option AggregatedHotness × WreTree :=
  match t with
  | [] => (none, [])
  | x :: xs =>
      if x.quantifiedHotness = q then (some x, xs)
      else
        let r := wre_remove xs q
        (r.1, x :: r.2)

/-- Modelled from the spec: put of the wre tree (section 4.2): insert ordered
by the is_hotter comparator (hotter first); on an equal key the payload is
replaced and the weight added. -/
def wre_put (t : WreTree) (v : AggregatedHotness) : WreTree :=
  match t with
  | [] => [v]
  | x :: xs =>
      if x.quantifiedHotness < v.quantifiedHotness then v :: x :: xs
      else if x.quantifiedHotness = v.quantifiedHotness then
        { size := x.size + v.size, quantifiedHotness := v.quantifiedHotness } :: xs
      else x :: wre_put xs v

/-- Modelled from the spec: the walk of find_by_weight_fraction, accumulating
the weight of strictly hotter nodes; returns the first node whose own weight
crosses the target, and the last (coldest) node when the target is never
crossed (the r = 1 tie rule of section 4.2). -/
def wre_find_weighted_go : WreTree → ℚ → ℚ → Option AggregatedHotness
  | [], _, _ => none
  | [x], _, _ => some x
  | x :: y :: ys, target, acc =>
      if target < acc + (x.size : ℚ) then some x
      else wre_find_weighted_go (y :: ys) target (acc + (x.size : ℚ))

/-- Modelled from the spec: wre_find_weighted(tree, ratio), section 4.2:
find-by-weight-fraction with the cumulative weight measured from the hottest
node. -/
def wre_find_weighted (t : WreTree) (ratio : ℚ) : Option AggregatedHotness :=
  wre_find_weighted_go t (ratio * (wre_total_weight t : ℚ)) 0

/-- Timestamp state machine of a type (group) entry. -/
inductive TimestampState where
  | TIMESTAMP_NOT_SET
  | TIMESTAMP_INIT
  | TIMESTAMP_INIT_DONE
deriving DecidableEq, Repr

export TimestampState (TIMESTAMP_NOT_SET TIMESTAMP_INIT TIMESTAMP_INIT_DONE)

/-- The hotness-relevant fields of struct ttype: two-window access counters,
window timestamps, the smoothed frequency f, the timestamp state machine and
the aggregated size of all live blocks of the type.  The touch callback is
diagnostics only (it does not affect any field) and is omitted. -/
structure ttype where
  n1 : ℚ
  n2 : ℚ
  t0 : ℕ
  t1 : ℕ
  t2 : ℕ
  f : ℚ
  timestamp_state : TimestampState
  total_size : ℕ
deriving DecidableEq, Repr

/-- The ranking state: cached hot threshold, the weight-ranked tree of
AggregatedHotness nodes, and the two smoothing weights (newWeight is set to
1 - oldWeight by ranking_create).  The mutex only guards concurrent access
and is not part of the state. -/
structure ranking where
  hotThreshold : ℚ
  entries : WreTree
  oldWeight : ℚ
  newWeight : ℚ
deriving DecidableEq, Repr

/-- ranking_create_internal: fresh ranking with empty tree, threshold 0 and
the given old-window smoothing weight. -/
def ranking_create (old_weight : ℚ) : ranking :=
  { hotThreshold := 0, entries := [], oldWeight := old_weight,
    newWeight := 1 - old_weight }

/-- ranking_quantify_hotness with QUANTIFICATION_ENABLED off (the
configuration pinned by the ranking tests): the identity. -/
def ranking_quantify_hotness (hotness : ℚ) : ℚ := hotness

/-- ranking_dequantify_hotness with QUANTIFICATION_ENABLED off: the
identity. -/
def ranking_dequantify_hotness (q : ℚ) : ℚ := q

/-- ranking_get_hot_threshold_internal. -/
def ranking_get_hot_threshold (r : ranking) : ℚ := r.hotThreshold

/-- ranking_is_hot_internal: strictly greater comparison of the entry
frequency against the cached threshold. -/
def ranking_is_hot (r : ranking) (entry : ttype) : Bool :=
  decide (ranking_get_hot_threshold r < entry.f)

/-- ranking_add_internal: remove the node keyed by the quantified hotness;
aggregate the size into it (size_t addition) or create a fresh payload, and
reinsert it when the resulting size is positive. -/
def ranking_add_internal (r : ranking) (hotness : ℚ) (size : ℕ) : ranking :=
  let temp := ranking_quantify_hotness hotness
  let rem := wre_remove r.entries temp
  match rem.1 with
  | some value =>
      let s := mod64 (value.size + size)
      if 0 < s then
        { r with entries := wre_put rem.2 { size := s, quantifiedHotness := temp } }
      else
        { r with entries := rem.2 }
  | none =>
      if 0 < size then
        { r with entries := wre_put rem.2 { size := size, quantifiedHotness := temp } }
      else
        { r with entries := rem.2 }

/-- ranking_remove_internal: remove the node keyed by the quantified hotness
and subtract the requested size from its aggregate in size_t arithmetic
(the removal of more than is present is logged via log_fatal, and is a fatal
assertion only under the CRASH_ON_BLOCK_NOT_FOUND debug flag); the node is
reinserted whenever the subtracted aggregate is nonzero. -/
def ranking_remove_internal (r : ranking) (hotness : ℚ) (size : ℕ) : ranking :=
  if size = 0 then r
  else
    let temp := ranking_quantify_hotness hotness
    let rem := wre_remove r.entries temp
    match rem.1 with
    | some removed =>
        let s := sub64 removed.size size
        if s = 0 then { r with entries := rem.2 }
        else { r with entries := wre_put rem.2 { size := s, quantifiedHotness := temp } }
    | none => r

/-- ranking_remove_internal_relaxed: remove the entry bucket; if it holds
less than the entry total_size remove all that can be removed; returns the
size that was actually removed together with the new state. -/
def ranking_remove_internal_relaxed (r : ranking) (entry : ttype) : ℕ × ranking :=
  let temp := ranking_quantify_hotness entry.f
  let rem := wre_remove r.entries temp
  match rem.1 with
  | some removed =>
      let block_size := entry.total_size
      if removed.size < block_size then
        (removed.size, { r with entries := rem.2 })
      else
        let s := removed.size - block_size
        if s = 0 then (block_size, { r with entries := rem.2 })
        else (block_size, { r with entries := wre_put rem.2 { size := s, quantifiedHotness := temp } })
  | none => (0, r)

/-- ranking_touch_entry_internal: the two-window hotness estimator.  The
access count n1 is incremented and t0 updated first; with a nonzero
timestamp the state machine advances, and in state INIT_DONE an elapsed
window (uint64_t difference above HOTNESS_MEASURE_WINDOW) closes the
measurement window: the smoothed frequency is recomputed from the two window
frequencies and the windows shift. -/
def ranking_touch_entry_internal (r : ranking) (entry : ttype) (timestamp : ℕ)
    (add_hotness : ℚ) : ttype :=
  let e := { entry with n1 := entry.n1 + add_hotness, t0 := timestamp }
  if timestamp ≠ 0 then
    let e := if e.timestamp_state = TIMESTAMP_NOT_SET then
        { e with t2 := timestamp, timestamp_state := TIMESTAMP_INIT }
      else e
    if e.timestamp_state = TIMESTAMP_INIT_DONE then
      if HOTNESS_MEASURE_WINDOW < sub64 e.t0 e.t1 then
        let f2 : ℚ := e.n2 / (sub64 e.t1 e.t2 : ℚ)
        let f1 : ℚ := e.n1 / (sub64 e.t0 e.t1 : ℚ)
        { e with f := f2 * r.oldWeight + f1 * r.newWeight,
                 t2 := e.t1, t1 := e.t0, n2 := e.n1, n1 := 0 }
      else e
    else
      if HOTNESS_MEASURE_WINDOW < sub64 e.t0 e.t2 then
        { e with timestamp_state := TIMESTAMP_INIT_DONE, t1 := e.t0 }
      else e
  else e

/-- ranking_touch_internal: remove (relaxed) the entry contribution from its
old bucket, advance the estimator, and add back exactly the removed amount
under the updated frequency. -/
def ranking_touch_internal (r : ranking) (entry : ttype) (timestamp : ℕ)
    (add_hotness : ℚ) : ranking × ttype :=
  let rem := ranking_remove_internal_relaxed r entry
  let e := ranking_touch_entry_internal r entry timestamp add_hotness
  (ranking_add_internal rem.2 e.f rem.1, e)

/-- ranking_calculate_hot_threshold_dram_total_internal: reset the cached
threshold to 0, look up the weighted node at the dram/total fraction, cache
its dequantified hotness when found, and return the cached threshold. -/
def ranking_calculate_hot_threshold_dram_total (r : ranking)
    (dram_pmem_ratio : ℚ) : ℚ × ranking :=
  match wre_find_weighted r.entries dram_pmem_ratio with
  | some agg_hot =>
      let t := ranking_dequantify_hotness agg_hot.quantifiedHotness
      (t, { r with hotThreshold := t })
  | none => (0, { r with hotThreshold := 0 })

/-- ranking_calculate_hot_threshold_dram_pmem_internal: convert the
dram/pmem ratio to a dram/total fraction and delegate. -/
def ranking_calculate_hot_threshold_dram_pmem (r : ranking)
    (dram_pmem_ratio : ℚ) : ℚ × ranking :=
  ranking_calculate_hot_threshold_dram_total r
    (dram_pmem_ratio / (1 + dram_pmem_ratio))

/-- ranking_calculate_total_size: DFS aggregation of all node sizes. -/
def ranking_calculate_total_size (r : ranking) : ℕ :=
  wre_total_weight r.entries

/-- The ranking population of the RankingTest fixture and of section 8:
blocks (f = i, size = N - i) for i in [0, N), added in increasing i. -/
def rankingPopulateAux (N : ℕ) : ℕ → ranking
  | 0 => ranking_create (9 / 10)
  | k + 1 => ranking_add_internal (rankingPopulateAux N k) (k : ℚ) (N - k)

/-- A fresh ranking populated with (f = i, size = N - i) for i in [0, N). -/
def rankingPopulate (N : ℕ) : ranking := rankingPopulateAux N N

/-- Entries of the event queue, the tagged union of section 4.1; addresses,
hashes, sizes and timestamps are modelled as naturals. -/
inductive EventEntry where
  | EVENT_CREATE_ADD (hash : ℕ) (address : ℕ) (size : ℕ)
  | EVENT_DESTROY_REMOVE (address : ℕ)
  | EVENT_REALLOC (addressOld : ℕ) (addressNew : ℕ) (size : ℕ)
  | EVENT_TOUCH (address : ℕ) (timestamp : ℕ)
  | EVENT_SET_TOUCH_CALLBACK (address : ℕ)
deriving DecidableEq, Repr

/-- Modelled from the spec: the bounded event ring (ranking_queue /
lockless_srmw_queue, whose implementation is not among the provided
sources), observed from a single thread: a capacity and the FIFO list of
pending events (pushed and not yet popped), oldest first. -/
structure lq_buffer where
  capacity : ℕ
  entries : List EventEntry
deriving DecidableEq, Repr

/-- Modelled from the spec: ranking_event_create(size): an empty ring of the
given capacity. -/
def ranking_event_create (size : ℕ) : lq_buffer :=
  { capacity := size, entries := [] }

/-- Modelled from the spec: ranking_event_push: copy the event into the ring,
failing (returning false, ring unchanged) when the ring is full. -/
def ranking_event_push (b : lq_buffer) (e : EventEntry) : Bool × lq_buffer :=
  if b.capacity ≤ b.entries.length then (false, b)
  else (true, { b with entries := b.entries ++ [e] })

/-- Modelled from the spec: ranking_event_pop: return the oldest pending
event, failing (returning none, ring unchanged) when the ring is empty. -/
def ranking_event_pop (b : lq_buffer) : Option EventEntry × lq_buffer :=
  match b.entries with
  | [] => (none, b)
  | e :: rest => (some e, { b with entries := rest })

/-- A single-thread driver operation on the event queue. -/
inductive QueueOp where
  | push (e : EventEntry)
  | pop
deriving DecidableEq, Repr

/-- Run a sequence of queue operations; returns the final buffer, the list of
successfully pushed events and the list of popped events (both oldest
first). -/
def runQueue (b : lq_buffer) : List QueueOp → lq_buffer × List EventEntry × List EventEntry
  | [] => (b, [], [])
  | QueueOp.push e :: ops =>
      let r := ranking_event_push b e
      let rest := runQueue r.2 ops
      (rest.1, (if r.1 then [e] else []) ++ rest.2.1, rest.2.2)
  | QueueOp.pop :: ops =>
      let r := ranking_event_pop b
      let rest := runQueue r.2 ops
      (rest.1, rest.2.1, (match r.1 with | some e => [e] | none => []) ++ rest.2.2)

/-- Hotness classes returned by the type registry lookup
(tachanka_get_hotness_type_hash). -/
inductive Hotness_e where
  | HOTNESS_COLD
  | HOTNESS_HOT
  | HOTNESS_NOT_FOUND
deriving DecidableEq, Repr

export Hotness_e (HOTNESS_COLD HOTNESS_HOT HOTNESS_NOT_FOUND)

/-- memtier_policy_data_hotness_is_hot: COLD maps to false, HOT and
NOT_FOUND (never observed, warm-up) map to true.  The classification of the
fingerprint hash is abstracted as the input. -/
def memtier_policy_data_hotness_is_hot (hotness : Hotness_e) : Bool :=
  match hotness with
  | HOTNESS_COLD => false
  | HOTNESS_NOT_FOUND => true
  | HOTNESS_HOT => true

/-- Memory kinds are identified by numbers; MEMKIND_DEFAULT is the DRAM
(hot-tier capable) kind. -/
def MEMKIND_DEFAULT : ℕ := 0

/-- MEMKIND_REGULAR, the second kind used by the tests. -/
def MEMKIND_REGULAR : ℕ := 1

/-- A tier configuration entry: memory kind and kind ratio. -/
structure memtier_tier_cfg where
  kind : ℕ
  kind_ratio : ℚ
deriving DecidableEq, Repr

/-- Zero tier configuration, standing for the zero-initialised memory
returned by calloc (the out-of-range default of array reads). -/
def tierCfgZero : memtier_tier_cfg := { kind := 0, kind_ratio := 0 }

/-- A threshold configuration entry of the DYNAMIC_THRESHOLD policy. -/
structure memtier_threshold_cfg where
  val : ℕ
  min : ℕ
  max : ℕ
  exp_norm_ratio : ℚ
deriving DecidableEq, Repr

/-- Zero threshold configuration (calloc default). -/
def thresCfgZero : memtier_threshold_cfg :=
  { val := 0, min := 0, max := 0, exp_norm_ratio := 0 }

/-- The builder state at construct time. -/
structure memtier_builder where
  cfg : List memtier_tier_cfg
  thres : List memtier_threshold_cfg
  check_cnt : ℕ
  trigger : ℚ
  degree : ℚ
deriving DecidableEq, Repr

/-- The constructed memtier_memory state (policy function pointers are
implied by which builder constructed it). -/
structure memtier_memory where
  cfg : List memtier_tier_cfg
  thres : List memtier_threshold_cfg
  thres_check_cnt : ℕ
  thres_init_check_cnt : ℕ
  thres_trigger : ℚ
  thres_degree : ℚ
  hot_tier_id : ℕ
deriving DecidableEq, Repr

/-- memtier_policy_data_hotness_get_kind: select the hot tier when the
fingerprint class is hot (or never observed), the other of the two tiers
otherwise, and return that tier's kind. -/
def memtier_policy_data_hotness_get_kind (memory : memtier_memory)
    (hotness : Hotness_e) : ℕ :=
  let dest_tier := if memtier_policy_data_hotness_is_hot hotness then
      memory.hot_tier_id
    else 1 - memory.hot_tier_id
  (memory.cfg.getD dest_tier tierCfgZero).kind

/-- Outcome of constructing a memtier_memory from a builder: a memory
object, a failure status (null returned, diagnostic logged), or process
termination (log_fatal followed by exit, or a crash). -/
inductive CreateResult where
  | ok (m : memtier_memory)
  | fail
  | fatalExit
deriving DecidableEq, Repr

/-- memtier_memory_init: fails (returns null) when the builder holds no
tier; otherwise yields a zero-initialised memory (allocation assumed to
succeed). -/
def memtier_memory_init (tier_size : ℕ) : Option memtier_memory :=
  if tier_size = 0 then none
  else some { cfg := [], thres := [], thres_check_cnt := 0,
              thres_init_check_cnt := 0, thres_trigger := 0, thres_degree := 0,
              hot_tier_id := 0 }

/-- Tier configurations normalised as in builder_static_create_memory and
builder_dynamic_create_memory: cfg[0] ratio becomes 1, cfg[i] becomes
cfg[0].kind_ratio / cfg[i].kind_ratio. -/
def normalizeTiers (cfg : List memtier_tier_cfg) : List memtier_tier_cfg :=
  let r0 := (cfg.getD 0 tierCfgZero).kind_ratio
  cfg.enum.map (fun p =>
    if p.1 = 0 then { p.2 with kind_ratio := 1 }
    else { p.2 with kind_ratio := r0 / p.2.kind_ratio })

/-- builder_static_create_memory: fails only when memtier_memory_init does
(no tiers). -/
def builder_static_create_memory (builder : memtier_builder) : CreateResult :=
  match memtier_memory_init builder.cfg.length with
  | none => CreateResult.fail
  | some memory =>
      CreateResult.ok { memory with cfg := normalizeTiers builder.cfg }

/-- Ascending non-overlap check of adjacent thresholds: the max of each
threshold must not exceed the min of the next. -/
def thresChainOk : List memtier_threshold_cfg → Bool
  | [] => true
  | [_] => true
  | a :: b :: rest => decide (a.max ≤ b.min) && thresChainOk (b :: rest)

/-- Per-threshold min/val/max ordering check of
builder_dynamic_create_memory. -/
def thresBoundsOk (thres : List memtier_threshold_cfg) : Bool :=
  thres.all (fun t => decide (t.min ≤ t.val) && decide (t.val ≤ t.max))

/-- builder_dynamic_create_memory: requires at least two tiers, copies the
threshold configuration, computes expected normalized ratios, and validates
bounds, non-overlap and non-negative trigger and degree; every violation is
a failure status with a diagnostic logged. -/
def builder_dynamic_create_memory (builder : memtier_builder) : CreateResult :=
  if builder.cfg.length < 2 then CreateResult.fail
  else
    match memtier_memory_init builder.cfg.length with
    | none => CreateResult.fail
    | some memory0 =>
        let n := builder.cfg.length - 1
        let thres := (List.range n).map (fun i =>
          { builder.thres.getD i thresCfgZero with
            exp_norm_ratio := (builder.cfg.getD (i + 1) tierCfgZero).kind_ratio /
              (builder.cfg.getD i tierCfgZero).kind_ratio })
        let memory := { memory0 with
          thres := thres,
          thres_init_check_cnt := builder.check_cnt,
          thres_check_cnt := builder.check_cnt,
          thres_trigger := builder.trigger,
          thres_degree := builder.degree }
        if ¬ (thresBoundsOk memory.thres ∧ thresChainOk memory.thres = true) then
          CreateResult.fail
        else if memory.thres_degree < (0 : ℚ) then CreateResult.fail
        else if memory.thres_trigger < (0 : ℚ) then CreateResult.fail
        else CreateResult.ok { memory with cfg := normalizeTiers builder.cfg }

/-- builder_hot_create_memory: a missing memory (zero tiers) is dereferenced
(a crash); a tier count other than two is log_fatal followed by exit(-1);
otherwise ratios are normalised by their sum, the hot tier is the
MEMKIND_DEFAULT one (index 0 taking precedence), and the absence of a
MEMKIND_DEFAULT tier is again fatal. -/
def builder_hot_create_memory (builder : memtier_builder) : CreateResult :=
  match memtier_memory_init builder.cfg.length with
  | none => CreateResult.fatalExit
  | some memory0 =>
      if builder.cfg.length ≠ 2 then CreateResult.fatalExit
      else
        let ratio_sum := (builder.cfg.getD 0 tierCfgZero).kind_ratio +
          (builder.cfg.getD 1 tierCfgZero).kind_ratio
        let cfg := builder.cfg.map (fun c =>
          { c with kind_ratio := c.kind_ratio / ratio_sum })
        if (cfg.getD 0 tierCfgZero).kind = MEMKIND_DEFAULT then
          CreateResult.ok { memory0 with cfg := cfg, hot_tier_id := 0 }
        else if (cfg.getD 1 tierCfgZero).kind = MEMKIND_DEFAULT then
          CreateResult.ok { memory0 with cfg := cfg, hot_tier_id := 1 }
        else CreateResult.fatalExit

/-! Shared lemmas about the wre tree model. -/

/-- Keys (quantified hotnesses) stored in a tree. -/
def wreKeys (t : WreTree) : List ℚ := t.map (fun e => e.quantifiedHotness)

theorem wre_lookup_eq_none (t : WreTree) (q : ℚ) (h : q ∉ wreKeys t) :
    wre_lookup t q = none := by
  induction t with
  | nil => rfl
  | cons x xs ih =>
      rw [wreKeys, List.map_cons, List.mem_cons, not_or] at h
      have hx : x.quantifiedHotness ≠ q := fun hc => h.1 hc.symm
      rw [wre_lookup, if_neg hx]
      exact ih h.2

theorem wre_remove_of_lookup_none (t : WreTree) (q : ℚ)
    (h : wre_lookup t q = none) : wre_remove t q = (none, t) := by
  induction t with
  | nil => rfl
  | cons x xs ih =>
      by_cases hx : x.quantifiedHotness = q
      · simp [wre_lookup, hx] at h
      · simp [wre_lookup, hx] at h
        simp [wre_remove, hx, ih h]

theorem wre_remove_snd_of_none (t : WreTree) (q : ℚ)
    (h : (wre_remove t q).1 = none) : (wre_remove t q).2 = t := by
  induction t with
  | nil => rfl
  | cons x xs ih =>
      by_cases hx : x.quantifiedHotness = q
      · simp [wre_remove, hx] at h
      · simp [wre_remove, hx] at h ⊢
        exact ih h

theorem wre_remove_total (t : WreTree) (q : ℚ) (v : AggregatedHotness)
    (h : (wre_remove t q).1 = some v) :
    wre_total_weight (wre_remove t q).2 + v.size = wre_total_weight t := by
  induction t with
  | nil => simp [wre_remove] at h
  | cons x xs ih =>
      by_cases hx : x.quantifiedHotness = q
      · simp [wre_remove, hx] at h ⊢
        subst h
        simp [wre_total_weight]
        ring
      · simp [wre_remove, hx] at h ⊢
        simp [wre_total_weight, List.map_cons, List.sum_cons] at ih ⊢
        have := ih h
        omega

theorem wre_remove_size_le (t : WreTree) (q : ℚ) (v : AggregatedHotness)
    (h : (wre_remove t q).1 = some v) : v.size ≤ wre_total_weight t := by
  have := wre_remove_total t q v h
  omega

theorem wre_put_total (t : WreTree) (v : AggregatedHotness) :
    wre_total_weight (wre_put t v) = wre_total_weight t + v.size := by
  induction t with
  | nil => simp [wre_put, wre_total_weight]
  | cons x xs ih =>
      by_cases hlt : x.quantifiedHotness < v.quantifiedHotness
      · simp [wre_put, hlt, wre_total_weight]
        ring
      · by_cases heq : x.quantifiedHotness = v.quantifiedHotness
        · simp [wre_put, hlt, heq, wre_total_weight]
          ring
        · simp [wre_put, hlt, heq, wre_total_weight] at ih ⊢
          omega

theorem wre_lookup_remove_fst (t : WreTree) (q : ℚ) (s : ℕ)
    (h : wre_lookup t q = some s) :
    (wre_remove t q).1 = some { size := s, quantifiedHotness := q } := by
  induction t with
  | nil => simp [wre_lookup] at h
  | cons x xs ih =>
      by_cases hx : x.quantifiedHotness = q
      · simp [wre_lookup, hx] at h
        simp [wre_remove, hx]
        cases x
        simp_all
      · simp [wre_lookup, hx] at h
        simp [wre_remove, hx]
        exact ih h

theorem wre_lookup_remove_self (t : WreTree) (q : ℚ)
    (hnd : (wreKeys t).Nodup) :
    wre_lookup (wre_remove t q).2 q = none := by
  induction t with
  | nil => rfl
  | cons x xs ih =>
      rw [wreKeys, List.map_cons, List.nodup_cons] at hnd
      by_cases hx : x.quantifiedHotness = q
      · rw [wre_remove]
        simp only [if_pos hx]
        apply wre_lookup_eq_none
        rw [← hx]
        exact hnd.1
      · rw [wre_remove]
        simp only [if_neg hx, wre_lookup]
        exact ih hnd.2

theorem wre_lookup_remove_other (t : WreTree) (q q' : ℚ) (hq : q' ≠ q) :
    wre_lookup (wre_remove t q).2 q' = wre_lookup t q' := by
  induction t with
  | nil => rfl
  | cons x xs ih =>
      by_cases hx : x.quantifiedHotness = q
      · have hx' : x.quantifiedHotness ≠ q' := by
          rw [hx]
          exact fun hc => hq hc.symm
        rw [wre_remove]
        simp only [if_pos hx]
        rw [wre_lookup, if_neg hx']
      · rw [wre_remove]
        simp only [if_neg hx, wre_lookup]
        by_cases hx' : x.quantifiedHotness = q'
        · rw [if_pos hx', if_pos hx']
        · rw [if_neg hx', if_neg hx']
          exact ih

theorem wre_lookup_put_self (t : WreTree) (v : AggregatedHotness)
    (h : wre_lookup t v.quantifiedHotness = none) :
    wre_lookup (wre_put t v) v.quantifiedHotness = some v.size := by
  induction t with
  | nil => simp [wre_put, wre_lookup]
  | cons x xs ih =>
      by_cases hx : x.quantifiedHotness = v.quantifiedHotness
      · rw [wre_lookup, if_pos hx] at h
        exact absurd h (by simp)
      · rw [wre_lookup, if_neg hx] at h
        by_cases hlt : x.quantifiedHotness < v.quantifiedHotness
        · rw [wre_put]
          simp only [if_pos hlt]
          rw [wre_lookup, if_pos rfl]
        · rw [wre_put]
          simp only [if_neg hlt, if_neg hx]
          rw [wre_lookup, if_neg hx]
          exact ih h

theorem wre_lookup_put_other (t : WreTree) (v : AggregatedHotness) (q' : ℚ)
    (hq : q' ≠ v.quantifiedHotness) :
    wre_lookup (wre_put t v) q' = wre_lookup t q' := by
  have hv : v.quantifiedHotness ≠ q' := fun hc => hq hc.symm
  induction t with
  | nil =>
      rw [wre_put]
      simp only [wre_lookup]
      rw [if_neg hv]
  | cons x xs ih =>
      by_cases hlt : x.quantifiedHotness < v.quantifiedHotness
      · rw [wre_put]
        simp only [if_pos hlt]
        simp only [wre_lookup]
        rw [if_neg hv]
      · by_cases heq : x.quantifiedHotness = v.quantifiedHotness
        · have hx' : x.quantifiedHotness ≠ q' := fun hc => hq (heq.symm.trans hc).symm
          rw [wre_put]
          simp only [if_neg hlt, if_pos heq]
          simp only [wre_lookup]
          rw [if_neg hv, if_neg hx']
        · rw [wre_put]
          simp only [if_neg hlt, if_neg heq]
          simp only [wre_lookup]
          by_cases hx' : x.quantifiedHotness = q'
          · rw [if_pos hx', if_pos hx']
          · rw [if_neg hx', if_neg hx']
            exact ih

theorem wre_find_weighted_go_head (x : AggregatedHotness) (xs : WreTree)
    (target acc : ℚ) (h : target < acc + (x.size : ℚ)) :
    wre_find_weighted_go (x :: xs) target acc = some x := by
  cases xs with
  | nil => rfl
  | cons y ys =>
      rw [wre_find_weighted_go]
      simp only [if_pos h]

theorem wre_find_weighted_go_last (t : WreTree) (target acc : ℚ)
    (h : acc + (wre_total_weight t : ℚ) ≤ target) :
    wre_find_weighted_go t target acc = t.getLast? := by
  induction t generalizing acc with
  | nil => rfl
  | cons x xs ih =>
      cases xs with
      | nil => rfl
      | cons y ys =>
          have hsum : (wre_total_weight (x :: y :: ys) : ℚ) =
              (x.size : ℚ) + (wre_total_weight (y :: ys) : ℚ) := by
            simp only [wre_total_weight, List.map_cons, List.sum_cons]
            push_cast
            ring
          have hx : ¬ target < acc + (x.size : ℚ) := by
            rw [hsum] at h
            have h0 : (0 : ℚ) ≤ (wre_total_weight (y :: ys) : ℚ) := by positivity
            push_neg
            linarith
          rw [wre_find_weighted_go]
          simp only [if_neg hx]
          rw [ih (acc + (x.size : ℚ)) (by rw [hsum] at h; linarith)]
          rw [List.getLast?_cons_cons]

theorem wre_find_weighted_zero (x : AggregatedHotness) (xs : WreTree)
    (hx : 0 < x.size) :
    wre_find_weighted (x :: xs) 0 = some x := by
  rw [wre_find_weighted]
  apply wre_find_weighted_go_head
  rw [zero_mul, zero_add]
  exact_mod_cast hx

theorem wre_find_weighted_one (t : WreTree) :
    wre_find_weighted t 1 = t.getLast? := by
  rw [wre_find_weighted]
  apply wre_find_weighted_go_last
  rw [zero_add, one_mul]

/-- The descending-key ordering invariant of the tree node list. -/
def SortedDesc (t : WreTree) : Prop :=
  t.Pairwise (fun a b => b.quantifiedHotness < a.quantifiedHotness)

/-- All stored aggregated sizes are positive. -/
def PosSizes (t : WreTree) : Prop := ∀ e ∈ t, 0 < e.size

theorem getLast?_mem_aux (t : WreTree) (z : AggregatedHotness)
    (h : t.getLast? = some z) : z ∈ t := by
  induction t with
  | nil => simp at h
  | cons x xs ih =>
      cases xs with
      | nil =>
          simp at h
          simp [h]
      | cons y ys =>
          rw [List.getLast?_cons_cons] at h
          exact List.mem_cons_of_mem x (ih h)

theorem sorted_head_max (x : AggregatedHotness) (xs : WreTree)
    (hs : SortedDesc (x :: xs)) :
    ∀ e ∈ x :: xs, e.quantifiedHotness ≤ x.quantifiedHotness := by
  intro e he
  rcases List.mem_cons.1 he with rfl | hmem
  · exact le_refl _
  · exact le_of_lt ((List.pairwise_cons.1 hs).1 e hmem)

theorem sorted_last_min (t : WreTree) (z : AggregatedHotness)
    (hs : SortedDesc t) (hz : t.getLast? = some z) :
    ∀ e ∈ t, z.quantifiedHotness ≤ e.quantifiedHotness := by
  induction t with
  | nil => simp at hz
  | cons x xs ih =>
      intro e he
      cases xs with
      | nil =>
          simp at hz
          rcases List.mem_cons.1 he with rfl | hmem
          · rw [hz]
          · simp at hmem
      | cons y ys =>
          rw [List.getLast?_cons_cons] at hz
          have hs' : SortedDesc (y :: ys) := (List.pairwise_cons.1 hs).2
          rcases List.mem_cons.1 he with rfl | hmem
          · have hzmem : z ∈ y :: ys := getLast?_mem_aux _ _ hz
            exact le_of_lt ((List.pairwise_cons.1 hs).1 z hzmem)
          · exact ih hs' hz e hmem

/-- The explicit node list produced by populating with (f = i, size = N - i)
for i in [0, k): descending keys k-1, ..., 0. -/
def popTree (N : ℕ) : ℕ → WreTree
  | 0 => []
  | k + 1 => { size := N - k, quantifiedHotness := (k : ℚ) } :: popTree N k

theorem popTree_mem (N k : ℕ) (e : AggregatedHotness) (he : e ∈ popTree N k) :
    ∃ j, j < k ∧ e = { size := N - j, quantifiedHotness := (j : ℚ) } := by
  induction k with
  | zero => simp [popTree] at he
  | succ k ih =>
      rw [popTree] at he
      rcases List.mem_cons.1 he with rfl | hmem
      · exact ⟨k, Nat.lt_succ_self k, rfl⟩
      · rcases ih hmem with ⟨j, hj, hje⟩
        exact ⟨j, Nat.lt_succ_of_lt hj, hje⟩

theorem popTree_lookup_ge (N k m : ℕ) (h : k ≤ m) :
    wre_lookup (popTree N k) (m : ℚ) = none := by
  apply wre_lookup_eq_none
  intro hmem
  rw [wreKeys, List.mem_map] at hmem
  rcases hmem with ⟨e, he, hq⟩
  rcases popTree_mem N k e he with ⟨j, hj, rfl⟩
  have hq' : (j : ℚ) = (m : ℚ) := hq
  have : j = m := by exact_mod_cast hq'
  omega

theorem popTree_put (N k : ℕ) :
    wre_put (popTree N k) { size := N - k, quantifiedHotness := (k : ℚ) } =
      popTree N (k + 1) := by
  cases k with
  | zero => rfl
  | succ j =>
      rw [popTree, wre_put]
      split_ifs with h1 h2
      · rw [popTree, popTree]
      · have h2' : (j : ℚ) = ((j + 1 : ℕ) : ℚ) := h2
        have : j = j + 1 := by exact_mod_cast h2'
        omega
      · have hlt : ((j : ℚ)) < ((j + 1 : ℕ) : ℚ) := by
          exact_mod_cast Nat.lt_succ_self j
        exact absurd hlt h1

theorem rankingPopulateAux_entries (N : ℕ) : ∀ k, k ≤ N →
    (rankingPopulateAux N k).entries = popTree N k := by
  intro k
  induction k with
  | zero => intro _; rfl
  | succ k ih =>
      intro hk
      have hk' : k ≤ N := Nat.le_of_succ_le hk
      rw [rankingPopulateAux, ranking_add_internal]
      simp only [ranking_quantify_hotness, ih hk']
      have hrem : wre_remove (popTree N k) (k : ℚ) = (none, popTree N k) :=
        wre_remove_of_lookup_none _ _ (popTree_lookup_ge N k k (le_refl k))
      rw [hrem]
      have hpos : 0 < N - k := by omega
      simp only [if_pos hpos]
      rw [popTree_put]

theorem rankingPopulate_entries (N : ℕ) :
    (rankingPopulate N).entries = popTree N N :=
  rankingPopulateAux_entries N N (le_refl N)

theorem popTree_sorted (N k : ℕ) : SortedDesc (popTree N k) := by
  induction k with
  | zero => exact List.Pairwise.nil
  | succ k ih =>
      rw [popTree, SortedDesc, List.pairwise_cons]
      refine ⟨?_, ih⟩
      intro e he
      rcases popTree_mem N k e he with ⟨j, hj, rfl⟩
      show (j : ℚ) < (k : ℚ)
      exact_mod_cast hj

theorem popTree_pos (N k : ℕ) (h : k ≤ N) : PosSizes (popTree N k) := by
  intro e he
  rcases popTree_mem N k e he with ⟨j, hj, rfl⟩
  simp only
  omega

theorem popTree_getLast (N k : ℕ) (h : 1 ≤ k) :
    (popTree N k).getLast? = some { size := N, quantifiedHotness := 0 } := by
  induction k with
  | zero => omega
  | succ k ih =>
      cases k with
      | zero => simp [popTree]
      | succ j =>
          rw [popTree]
          rw [popTree]
          rw [List.getLast?_cons_cons]
          rw [← popTree]
          exact ih (by omega)

/-- Arithmetic helper: uint64_t subtraction agrees with truncated natural
subtraction when no wrap occurs. -/
theorem sub64_eq_sub (a b : ℕ) (hb : b ≤ a) (ha : a < U64) : sub64 a b = a - b := by
  have hU : U64 = 18446744073709551616 := by norm_num [U64]
  rw [hU] at ha
  rw [sub64, hU]
  omega

/-- Arithmetic helper: uint64_t subtraction wraps around when subtracting
more than is present. -/
theorem sub64_wrap (a b : ℕ) (hab : a < b) (hb : b < U64) :
    sub64 a b = a + U64 - b := by
  have hU : U64 = 18446744073709551616 := by norm_num [U64]
  rw [hU] at hb
  rw [sub64, hU]
  omega

/-- Arithmetic helper: mod64 is the identity below 2^64. -/
theorem mod64_eq_self (a : ℕ) (h : a < U64) : mod64 a = a := by
  rw [mod64]
  exact Nat.mod_eq_of_lt h

theorem runQueue_spec (ops : List QueueOp) : ∀ b : lq_buffer,
    (runQueue b ops).1.capacity = b.capacity ∧
    (runQueue b ops).2.2 ++ (runQueue b ops).1.entries =
      b.entries ++ (runQueue b ops).2.1 ∧
    (b.entries.length ≤ b.capacity →
      (runQueue b ops).1.entries.length ≤ b.capacity) := by
  induction ops with
  | nil =>
      intro b
      exact ⟨rfl, by simp [runQueue], fun h => h⟩
  | cons op ops ih =>
      intro b
      cases op with
      | push e =>
          by_cases hfull : b.capacity ≤ b.entries.length
          · have hpush : ranking_event_push b e = (false, b) := by
              rw [ranking_event_push, if_pos hfull]
            rw [runQueue]
            simp only [hpush]
            rcases ih b with ⟨h1, h2, h3⟩
            exact ⟨h1, by simpa using h2, h3⟩
          · have hpush : ranking_event_push b e =
                (true, { b with entries := b.entries ++ [e] }) := by
              rw [ranking_event_push, if_neg hfull]
            rw [runQueue]
            simp only [hpush]
            rcases ih { b with entries := b.entries ++ [e] } with ⟨h1, h2, h3⟩
            refine ⟨h1, ?_, ?_⟩
            · simp only at h2 ⊢
              rw [h2]
              simp
            · intro _
              apply h3
              simp only [List.length_append, List.length_cons, List.length_nil]
              omega
      | pop =>
          cases hentries : b.entries with
          | nil =>
              have hpop : ranking_event_pop b = (none, b) := by
                rw [ranking_event_pop]
                split
                · rfl
                · simp_all
              rw [runQueue]
              simp only [hpop]
              rcases ih b with ⟨h1, h2, h3⟩
              rw [hentries] at h2 h3
              exact ⟨h1, by simpa using h2, h3⟩
          | cons x rest =>
              have hpop : ranking_event_pop b =
                  (some x, { b with entries := rest }) := by
                rw [ranking_event_pop]
                split
                · simp_all
                · simp_all
              rw [runQueue]
              simp only [hpop]
              rcases ih { b with entries := rest } with ⟨h1, h2, h3⟩
              refine ⟨h1, ?_, ?_⟩
              · simp only [List.cons_append, List.nil_append,
                  List.append_assoc] at h2 ⊢
                rw [h2]
              · intro hlen
                apply h3
                simp only [List.length_cons] at hlen ⊢
                omega

/-! Claim theorems. -/

set_option maxRecDepth 200000

/-- A one-node ranking used for concrete checks: key 1, aggregated size 5. -/
def rankingOneNode : ranking := ranking_add_internal (ranking_create (9 / 10)) 1 5

/-- Claim C1 counterexample: removing size 10 from the node with key 1 whose
stored aggregate is 5 does NOT leave a zero aggregate and does NOT discard
the node: the strict remove subtracts in size_t arithmetic, so the node is
reinserted with the wrapped-around size 2^64 - 5, which is nonzero. -/
theorem claim_C1_counterexample :
    (wre_lookup (ranking_remove_internal rankingOneNode 1 10).entries 1).getD 0 =
      U64 - 5 ∧
    wre_lookup (ranking_remove_internal rankingOneNode 1 10).entries 1 ≠ none ∧
    U64 - 5 ≠ 0 :=
  of_decide_eq_true (by with_unfolding_all rfl)

/-- Claim C1 (amended): when the node keyed quantify(hotness) stores an
aggregate s smaller than the requested size, ranking_remove(hotness, size)
logs the error but subtracts modulo 2^64: the node is reinserted with the
wrapped-around aggregate s + 2^64 - size (which is nonzero), not discarded,
and no other node of the tree changes. -/
theorem claim_C1_amended (r : ranking) (hotness : ℚ) (size s : ℕ)
    (hnd : (wreKeys r.entries).Nodup)
    (hl : wre_lookup r.entries (ranking_quantify_hotness hotness) = some s)
    (hs : s < size) (hsize : size < U64) :
    wre_lookup (ranking_remove_internal r hotness size).entries
        (ranking_quantify_hotness hotness) = some (s + U64 - size) ∧
    s + U64 - size ≠ 0 ∧
    (∀ q', q' ≠ ranking_quantify_hotness hotness →
      wre_lookup (ranking_remove_internal r hotness size).entries q' =
        wre_lookup r.entries q') := by
  have hsz0 : size ≠ 0 := by omega
  have hfst : (wre_remove r.entries (ranking_quantify_hotness hotness)).1 =
      some { size := s, quantifiedHotness := ranking_quantify_hotness hotness } :=
    wre_lookup_remove_fst _ _ _ hl
  have hwrap : sub64 s size = s + U64 - size := sub64_wrap s size hs hsize
  have hnz : s + U64 - size ≠ 0 := by
    have : size < U64 := hsize
    omega
  have hres : (ranking_remove_internal r hotness size).entries =
      wre_put (wre_remove r.entries (ranking_quantify_hotness hotness)).2
        { size := s + U64 - size,
          quantifiedHotness := ranking_quantify_hotness hotness } := by
    rw [ranking_remove_internal, if_neg hsz0]
    simp only [hfst, hwrap, if_neg hnz]
  refine ⟨?_, hnz, ?_⟩
  · rw [hres]
    have hnone : wre_lookup
        (wre_remove r.entries (ranking_quantify_hotness hotness)).2
        (ranking_quantify_hotness hotness) = none :=
      wre_lookup_remove_self _ _ hnd
    exact wre_lookup_put_self _ _ hnone
  · intro q' hq'
    rw [hres]
    rw [wre_lookup_put_other _ _ _ hq']
    exact wre_lookup_remove_other _ _ _ hq'

/-- Claim C1 witness: the amended theorem applied to the one-node ranking
(key 1, aggregate 5) with a removal of size 10. -/
theorem claim_C1_witness :
    wre_lookup (ranking_remove_internal rankingOneNode 1 10).entries
        (ranking_quantify_hotness 1) = some (5 + U64 - 10) ∧
    5 + U64 - 10 ≠ 0 ∧
    (∀ q', q' ≠ ranking_quantify_hotness 1 →
      wre_lookup (ranking_remove_internal rankingOneNode 1 10).entries q' =
        wre_lookup rankingOneNode.entries q') :=
  claim_C1_amended rankingOneNode 1 10 5
    (of_decide_eq_true (by with_unfolding_all rfl))
    (of_decide_eq_true (by with_unfolding_all rfl))
    (of_decide_eq_true (by with_unfolding_all rfl))
    (of_decide_eq_true (by with_unfolding_all rfl))

theorem threshold_of_find (r : ranking) (ratio : ℚ) (agg : AggregatedHotness)
    (h : wre_find_weighted r.entries ratio = some agg) :
    (ranking_calculate_hot_threshold_dram_total r ratio).1 =
      agg.quantifiedHotness := by
  rw [ranking_calculate_hot_threshold_dram_total, h]
  rfl

/-- Claim C2 counterexample: the general statement that compute_threshold(1)
equals 0 fails on a ranking holding a single node with hotness 1 and size 5:
the threshold at fraction 1 is the minimum stored hotness 1, not 0. -/
theorem claim_C2_counterexample :
    (ranking_calculate_hot_threshold_dram_total rankingOneNode 1).1 ≠ 0 :=
  of_decide_eq_true (by with_unfolding_all rfl)

/-- Claim C2 (amended): for every N at least 1, populating a fresh ranking
with (hotness i, size N - i) for i in [0, N) makes compute_threshold(0)
return N - 1 (the maximum observed hotness) and compute_threshold(1) return
0; in general compute_threshold(0) returns the maximum stored hotness and
compute_threshold(1) returns the MINIMUM stored hotness (not 0 as claimed),
which is 0 for this population. -/
theorem claim_C2_amended :
    (∀ N : ℕ, 1 ≤ N →
      (ranking_calculate_hot_threshold_dram_total (rankingPopulate N) 0).1 =
        ((N - 1 : ℕ) : ℚ) ∧
      (ranking_calculate_hot_threshold_dram_total (rankingPopulate N) 1).1 = 0) ∧
    (∀ (r : ranking) (x : AggregatedHotness) (xs : WreTree),
      r.entries = x :: xs → SortedDesc r.entries → PosSizes r.entries →
      ((ranking_calculate_hot_threshold_dram_total r 0).1 = x.quantifiedHotness ∧
        ∀ e ∈ r.entries, e.quantifiedHotness ≤ x.quantifiedHotness) ∧
      (∀ z, r.entries.getLast? = some z →
        (ranking_calculate_hot_threshold_dram_total r 1).1 = z.quantifiedHotness ∧
        ∀ e ∈ r.entries, z.quantifiedHotness ≤ e.quantifiedHotness)) := by
  have general : ∀ (r : ranking) (x : AggregatedHotness) (xs : WreTree),
      r.entries = x :: xs → SortedDesc r.entries → PosSizes r.entries →
      ((ranking_calculate_hot_threshold_dram_total r 0).1 = x.quantifiedHotness ∧
        ∀ e ∈ r.entries, e.quantifiedHotness ≤ x.quantifiedHotness) ∧
      (∀ z, r.entries.getLast? = some z →
        (ranking_calculate_hot_threshold_dram_total r 1).1 = z.quantifiedHotness ∧
        ∀ e ∈ r.entries, z.quantifiedHotness ≤ e.quantifiedHotness) := by
    intro r x xs hent hsorted hpos
    constructor
    · have hx : 0 < x.size := hpos x (by rw [hent]; exact List.mem_cons_self x xs)
      have hfind : wre_find_weighted r.entries 0 = some x := by
        rw [hent]
        exact wre_find_weighted_zero x xs hx
      refine ⟨threshold_of_find r 0 x hfind, ?_⟩
      rw [hent] at hsorted ⊢
      exact sorted_head_max x xs hsorted
    · intro z hz
      have hfind : wre_find_weighted r.entries 1 = some z := by
        rw [wre_find_weighted_one]
        exact hz
      exact ⟨threshold_of_find r 1 z hfind, sorted_last_min r.entries z hsorted hz⟩
  refine ⟨?_, general⟩
  intro N hN
  obtain ⟨M, rfl⟩ : ∃ M, N = M + 1 := ⟨N - 1, by omega⟩
  have hent : (rankingPopulate (M + 1)).entries = popTree (M + 1) (M + 1) :=
    rankingPopulate_entries (M + 1)
  have hent' : (rankingPopulate (M + 1)).entries =
      { size := M + 1 - M, quantifiedHotness := (M : ℚ) } ::
        popTree (M + 1) M := by
    rw [hent, popTree]
  have hsorted : SortedDesc (rankingPopulate (M + 1)).entries := by
    rw [hent]
    exact popTree_sorted (M + 1) (M + 1)
  have hpos : PosSizes (rankingPopulate (M + 1)).entries := by
    rw [hent]
    exact popTree_pos (M + 1) (M + 1) (le_refl (M + 1))
  rcases general (rankingPopulate (M + 1)) _ _ hent' hsorted hpos with ⟨⟨h0, _⟩, h1⟩
  constructor
  · rw [h0]
    show (M : ℚ) = ((M + 1 - 1 : ℕ) : ℚ)
    norm_num
  · have hlast : (rankingPopulate (M + 1)).entries.getLast? =
        some { size := M + 1, quantifiedHotness := 0 } := by
      rw [hent]
      exact popTree_getLast (M + 1) (M + 1) (by omega)
    rcases h1 _ hlast with ⟨h1a, _⟩
    exact h1a

/-- Claim C2 witness: the amended theorem at N = 3, and its general part at
the one-node ranking (key 1, size 5). -/
theorem claim_C2_witness :
    ((ranking_calculate_hot_threshold_dram_total (rankingPopulate 3) 0).1 =
        ((3 - 1 : ℕ) : ℚ) ∧
      (ranking_calculate_hot_threshold_dram_total (rankingPopulate 3) 1).1 = 0) ∧
    (ranking_calculate_hot_threshold_dram_total rankingOneNode 0).1 = 1 := by
  have hent : rankingOneNode.entries = [{ size := 5, quantifiedHotness := 1 }] :=
    of_decide_eq_true (by with_unfolding_all rfl)
  refine ⟨claim_C2_amended.1 3 (by norm_num), ?_⟩
  refine (claim_C2_amended.2 rankingOneNode
    { size := 5, quantifiedHotness := 1 } [] hent ?_ ?_).1.1
  · rw [SortedDesc, hent]
    exact List.pairwise_singleton _ _
  · rw [PosSizes, hent]
    intro e he
    rw [List.mem_singleton] at he
    subst he
    norm_num

/-- A group entry carrying only a frequency, as used by the hotness
classification checks of the ranking tests. -/
def ttypeWithF (f : ℚ) : ttype :=
  { n1 := 0, n2 := 0, t0 := 0, t1 := 0, t2 := 0, f := f,
    timestamp_state := TIMESTAMP_NOT_SET, total_size := 0 }

/-- Claim C3: evaluation of the code at the failing input.  After populating
with (size = 100..1, f = 0..99) the threshold at fraction 0 is 99, but
ranking_is_hot compares with a strict greater-than, so the entry with f = 99
(and every other entry) is classified COLD, contradicting the claim and the
repository test RankingTest.check_hotness_highest, which asserts that the
f = 99 entry is hot. -/
theorem claim_C3_code_divergence :
    (ranking_calculate_hot_threshold_dram_total (rankingPopulate 100) 0).1 = 99 ∧
    ranking_is_hot
      (ranking_calculate_hot_threshold_dram_total (rankingPopulate 100) 0).2
      (ttypeWithF 99) = false ∧
    ranking_is_hot
      (ranking_calculate_hot_threshold_dram_total (rankingPopulate 100) 0).2
      (ttypeWithF 98) = false :=
  of_decide_eq_true (by with_unfolding_all rfl)

/-- Claim C4: evaluation of the code at the failing input.  After populating
with (size = 100..1, f = 0..99) the threshold at fraction 0.5 is 29 as
claimed, but the boundary entry f = 29 is classified COLD by the strict
greater-than of ranking_is_hot, contradicting the claim and the repository
test RankingTest.check_hotness_50_50, which asserts blocks[29] is hot;
entries with f = 30 are hot and f = 28 cold as expected. -/
theorem claim_C4_code_divergence :
    (ranking_calculate_hot_threshold_dram_total (rankingPopulate 100) (1 / 2)).1 = 29 ∧
    ranking_is_hot
      (ranking_calculate_hot_threshold_dram_total (rankingPopulate 100) (1 / 2)).2
      (ttypeWithF 29) = false ∧
    ranking_is_hot
      (ranking_calculate_hot_threshold_dram_total (rankingPopulate 100) (1 / 2)).2
      (ttypeWithF 30) = true ∧
    ranking_is_hot
      (ranking_calculate_hot_threshold_dram_total (rankingPopulate 100) (1 / 2)).2
      (ttypeWithF 28) = false :=
  of_decide_eq_true (by with_unfolding_all rfl)

/-- Claim C5: compute_threshold_by_ratio(r) converts the adjacent-tier ratio
r to the total fraction r / (1 + r) and delegates to compute_threshold,
returning the same value and caching the same hot threshold. -/
theorem claim_C5_ratio_delegates (r : ranking) (ratio : ℚ) (_h : 0 ≤ ratio) :
    (ranking_calculate_hot_threshold_dram_pmem r ratio).1 =
      (ranking_calculate_hot_threshold_dram_total r (ratio / (1 + ratio))).1 ∧
    (ranking_calculate_hot_threshold_dram_pmem r ratio).2.hotThreshold =
      (ranking_calculate_hot_threshold_dram_total r (ratio / (1 + ratio))).2.hotThreshold :=
  ⟨rfl, rfl⟩

/-- Claim C5 witness: the delegation theorem at the populated ranking with
ratio 1 (equal adjacent tiers, total fraction one half). -/
theorem claim_C5_witness :
    (ranking_calculate_hot_threshold_dram_pmem (rankingPopulate 3) 1).1 =
      (ranking_calculate_hot_threshold_dram_total (rankingPopulate 3) (1 / (1 + 1))).1 ∧
    (ranking_calculate_hot_threshold_dram_pmem (rankingPopulate 3) 1).2.hotThreshold =
      (ranking_calculate_hot_threshold_dram_total (rankingPopulate 3) (1 / (1 + 1))).2.hotThreshold :=
  claim_C5_ratio_delegates (rankingPopulate 3) 1 (by norm_num)

/-- Claim C6: the two-window estimator on an INIT_DONE entry.  With monotone
uint64_t timestamps (t2 at most t1 at most t0, below 2^64, as delivered by
the sampler), a touch whose distance to the window opening exceeds
HOTNESS_MEASURE_WINDOW closes the window: f becomes
old * (n2 / (t1 - t2)) + (1 - old) * ((n1 + add) / (t0 - t1)) — the current
touch included in n1 — and then t2 is set to t1, t1 to t0, n2 to the closing
n1 and n1 to 0; a touch within the window leaves f, t1, t2 and n2
unchanged. -/
theorem claim_C6_touch_entry (r : ranking) (e : ttype) (t0 : ℕ) (add_hotness : ℚ)
    (hstate : e.timestamp_state = TIMESTAMP_INIT_DONE)
    (hw : r.newWeight = 1 - r.oldWeight)
    (h1 : e.t1 ≤ t0) (h0 : t0 < U64) (h2 : e.t2 ≤ e.t1) :
    (HOTNESS_MEASURE_WINDOW < t0 - e.t1 →
      ranking_touch_entry_internal r e t0 add_hotness =
        { n1 := 0, n2 := e.n1 + add_hotness, t0 := t0, t1 := t0, t2 := e.t1,
          f := (e.n2 / ((e.t1 - e.t2 : ℕ) : ℚ)) * r.oldWeight +
            ((e.n1 + add_hotness) / ((t0 - e.t1 : ℕ) : ℚ)) * (1 - r.oldWeight),
          timestamp_state := TIMESTAMP_INIT_DONE,
          total_size := e.total_size }) ∧
    (t0 - e.t1 ≤ HOTNESS_MEASURE_WINDOW →
      (ranking_touch_entry_internal r e t0 add_hotness).f = e.f ∧
      (ranking_touch_entry_internal r e t0 add_hotness).t1 = e.t1 ∧
      (ranking_touch_entry_internal r e t0 add_hotness).t2 = e.t2 ∧
      (ranking_touch_entry_internal r e t0 add_hotness).n2 = e.n2 ∧
      (ranking_touch_entry_internal r e t0 add_hotness).n1 = e.n1 + add_hotness ∧
      (ranking_touch_entry_internal r e t0 add_hotness).t0 = t0 ∧
      (ranking_touch_entry_internal r e t0 add_hotness).timestamp_state =
        e.timestamp_state) := by
  have hne : e.timestamp_state ≠ TIMESTAMP_NOT_SET := by
    rw [hstate]
    intro hcon
    exact TimestampState.noConfusion hcon
  have hsub : sub64 t0 e.t1 = t0 - e.t1 := sub64_eq_sub t0 e.t1 h1 h0
  have hsub2 : sub64 e.t1 e.t2 = e.t1 - e.t2 :=
    sub64_eq_sub e.t1 e.t2 h2 (by omega)
  have hne' : ({ e with n1 := e.n1 + add_hotness, t0 := t0 } : ttype).timestamp_state ≠
      TIMESTAMP_NOT_SET := hne
  have hstate' : ({ e with n1 := e.n1 + add_hotness, t0 := t0 } : ttype).timestamp_state =
      TIMESTAMP_INIT_DONE := hstate
  constructor
  · intro hgt
    have ht0 : t0 ≠ 0 := by
      have hWpos : (0 : ℕ) < HOTNESS_MEASURE_WINDOW := by
        norm_num [HOTNESS_MEASURE_WINDOW]
      omega
    simp only [ranking_touch_entry_internal, if_pos ht0, if_neg hne', if_pos hstate']
    simp only [hsub, hsub2, if_pos hgt, hw]
    rw [hstate]
  · intro hle
    by_cases ht0 : t0 ≠ 0
    · have hle' : ¬ HOTNESS_MEASURE_WINDOW < t0 - e.t1 := by omega
      simp only [ranking_touch_entry_internal, if_pos ht0, if_neg hne', if_pos hstate']
      simp [hsub, if_neg hle']
    · simp only [ranking_touch_entry_internal, if_neg ht0]
      simp

/-- A concrete INIT_DONE entry for exercising the window-closing touch. -/
def ttypeC6 : ttype :=
  { n1 := 2, n2 := 3, t0 := 0, t1 := 5, t2 := 1, f := 0,
    timestamp_state := TIMESTAMP_INIT_DONE, total_size := 7 }

/-- Claim C6 witness: the touch-entry theorem applied at a concrete entry,
with a touch one past the measurement window. -/
theorem claim_C6_witness :
    ranking_touch_entry_internal (ranking_create (9 / 10)) ttypeC6 1000000006 1 =
      { n1 := 0, n2 := ttypeC6.n1 + 1, t0 := 1000000006, t1 := 1000000006,
        t2 := ttypeC6.t1,
        f := (ttypeC6.n2 / ((ttypeC6.t1 - ttypeC6.t2 : ℕ) : ℚ)) *
            (ranking_create (9 / 10)).oldWeight +
          ((ttypeC6.n1 + 1) / ((1000000006 - ttypeC6.t1 : ℕ) : ℚ)) *
            (1 - (ranking_create (9 / 10)).oldWeight),
        timestamp_state := TIMESTAMP_INIT_DONE, total_size := ttypeC6.total_size } :=
  (claim_C6_touch_entry (ranking_create (9 / 10)) ttypeC6 1000000006 1 rfl rfl
    (of_decide_eq_true (by with_unfolding_all rfl))
    (of_decide_eq_true (by with_unfolding_all rfl))
    (of_decide_eq_true (by with_unfolding_all rfl))).1
    (of_decide_eq_true (by with_unfolding_all rfl))

/-- Claim C7: under the data-hotness policy, with the two tiers holding
distinct kinds and a valid hot tier index, get_kind returns the hot tier
kind exactly when the fingerprint class is HOT or NOT_FOUND (unknown), the
other tier kind exactly when the class is COLD, and a never-observed
fingerprint (NOT_FOUND) is always dispatched to the hot (fast) tier. -/
theorem claim_C7_get_kind (memory : memtier_memory) (hotness : Hotness_e)
    (htier : memory.hot_tier_id < 2)
    (hkinds : (memory.cfg.getD 0 tierCfgZero).kind ≠
      (memory.cfg.getD 1 tierCfgZero).kind) :
    (memtier_policy_data_hotness_get_kind memory hotness =
        (memory.cfg.getD memory.hot_tier_id tierCfgZero).kind ↔
      (hotness = HOTNESS_HOT ∨ hotness = HOTNESS_NOT_FOUND)) ∧
    (memtier_policy_data_hotness_get_kind memory hotness =
        (memory.cfg.getD (1 - memory.hot_tier_id) tierCfgZero).kind ↔
      hotness = HOTNESS_COLD) ∧
    memtier_policy_data_hotness_get_kind memory HOTNESS_NOT_FOUND =
      (memory.cfg.getD memory.hot_tier_id tierCfgZero).kind := by
  have hcases : memory.hot_tier_id = 0 ∨ memory.hot_tier_id = 1 := by omega
  have hkinds' : (memory.cfg[0]?.getD tierCfgZero).kind ≠
      (memory.cfg[1]?.getD tierCfgZero).kind := by
    simpa [List.getD] using hkinds
  rcases hcases with h | h <;> cases hotness <;>
    simp [memtier_policy_data_hotness_get_kind, memtier_policy_data_hotness_is_hot,
      h, hkinds', Ne.symm hkinds']

/-- Claim C7 witness: the dispatch theorem at a concrete two-tier memory
(kinds 0 and 1, hot tier 0) and a COLD classification. -/
theorem claim_C7_witness :
    (memtier_policy_data_hotness_get_kind
        { cfg := [{ kind := MEMKIND_DEFAULT, kind_ratio := 1 },
                  { kind := MEMKIND_REGULAR, kind_ratio := 1 }],
          thres := [], thres_check_cnt := 0, thres_init_check_cnt := 0,
          thres_trigger := 0, thres_degree := 0, hot_tier_id := 0 } HOTNESS_COLD =
      (({ cfg := [{ kind := MEMKIND_DEFAULT, kind_ratio := 1 },
                  { kind := MEMKIND_REGULAR, kind_ratio := 1 }],
          thres := [], thres_check_cnt := 0, thres_init_check_cnt := 0,
          thres_trigger := 0, thres_degree := 0,
          hot_tier_id := 0 } : memtier_memory).cfg.getD 1 tierCfgZero).kind ↔
      HOTNESS_COLD = HOTNESS_COLD) :=
  (claim_C7_get_kind _ HOTNESS_COLD (by norm_num)
    (of_decide_eq_true (by with_unfolding_all rfl))).2.1

/-- Claim C8: driving the bounded event queue from a single thread by any
operation sequence from a fresh queue of capacity c: at most c events are
ever pending; a push fails exactly when c events are pending; a pop fails
exactly when none is pending; popped events followed by the still-pending
events are exactly the successfully pushed events in FIFO order, so whenever
the queue has been drained the popped events equal the pushed events. -/
theorem claim_C8_queue (c : ℕ) (ops : List QueueOp) :
    (runQueue (ranking_event_create c) ops).1.entries.length ≤ c ∧
    (∀ e, (ranking_event_push (runQueue (ranking_event_create c) ops).1 e).1 =
        false ↔ (runQueue (ranking_event_create c) ops).1.entries.length = c) ∧
    ((ranking_event_pop (runQueue (ranking_event_create c) ops).1).1 = none ↔
      (runQueue (ranking_event_create c) ops).1.entries = []) ∧
    (runQueue (ranking_event_create c) ops).2.2 ++
        (runQueue (ranking_event_create c) ops).1.entries =
      (runQueue (ranking_event_create c) ops).2.1 ∧
    ((runQueue (ranking_event_create c) ops).1.entries = [] →
      (runQueue (ranking_event_create c) ops).2.2 =
        (runQueue (ranking_event_create c) ops).2.1) := by
  rcases runQueue_spec ops (ranking_event_create c) with ⟨hcap, happ, hlen⟩
  have hcap' : (runQueue (ranking_event_create c) ops).1.capacity = c := hcap
  have hinv : (runQueue (ranking_event_create c) ops).1.entries.length ≤ c := by
    exact hlen (Nat.zero_le c)
  have happ' : (runQueue (ranking_event_create c) ops).2.2 ++
      (runQueue (ranking_event_create c) ops).1.entries =
      (runQueue (ranking_event_create c) ops).2.1 := by
    have := happ
    rw [ranking_event_create] at this
    simpa using this
  refine ⟨hinv, ?_, ?_, happ', ?_⟩
  · intro e
    rw [ranking_event_push]
    split_ifs with hcond
    · rw [hcap'] at hcond
      constructor
      · intro _
        omega
      · intro _
        rfl
    · rw [hcap'] at hcond
      constructor
      · intro hcon
        exact hcon.elim
      · intro heq
        exact absurd heq (by omega)
  · rw [ranking_event_pop]
    cases hent : (runQueue (ranking_event_create c) ops).1.entries with
    | nil => simp
    | cons x xs => simp
  · intro hempty
    rw [hempty] at happ'
    simpa using happ'

/-- The queue operation sequence of the repository test test_simple (first
phase): one pop on empty, five pushes into a capacity-4 ring (the fifth
fails), then five pops (the fifth fails). -/
def opsC8 : List QueueOp :=
  [QueueOp.pop,
   QueueOp.push (EventEntry.EVENT_CREATE_ADD 1 0 0),
   QueueOp.push (EventEntry.EVENT_TOUCH 2 0),
   QueueOp.push (EventEntry.EVENT_TOUCH 3 0),
   QueueOp.push (EventEntry.EVENT_CREATE_ADD 4 0 0),
   QueueOp.push (EventEntry.EVENT_TOUCH 5 0),
   QueueOp.pop, QueueOp.pop, QueueOp.pop, QueueOp.pop, QueueOp.pop]

/-- Claim C8 witness: the queue theorem at capacity 4 with the test_simple
operation sequence; the queue drains, so popped equals pushed. -/
theorem claim_C8_witness :
    (runQueue (ranking_event_create 4) opsC8).2.2 =
      (runQueue (ranking_event_create 4) opsC8).2.1 :=
  (claim_C8_queue 4 opsC8).2.2.2.2 (of_decide_eq_true (by with_unfolding_all rfl))

/-- A one-tier builder for the data-hotness policy. -/
def builderC9 : memtier_builder :=
  { cfg := [{ kind := MEMKIND_DEFAULT, kind_ratio := 1 }], thres := [],
    check_cnt := 0, trigger := 0, degree := 0 }

/-- An empty builder (no tiers added). -/
def builderEmpty : memtier_builder :=
  { cfg := [], thres := [], check_cnt := 0, trigger := 0, degree := 0 }

/-- Claim C9 counterexample: constructing a DATA_HOTNESS memory from a
builder with one tier does not return a failure status: the code logs fatal
and terminates the process (exit(-1)). -/
theorem claim_C9_counterexample :
    builder_hot_create_memory builderC9 ≠ CreateResult.fail ∧
    builder_hot_create_memory builderC9 = CreateResult.fatalExit :=
  of_decide_eq_true (by with_unfolding_all rfl)

/-- Claim C9 (amended): STATIC_RATIO with zero tiers and DYNAMIC_THRESHOLD
with fewer than two tiers are rejected with a failure status (null memory,
diagnostic logged), but DATA_HOTNESS with a tier count other than two
terminates the process (log_fatal + exit, and a null dereference for zero
tiers) instead of returning a failure status. -/
theorem claim_C9_amended :
    (∀ b : memtier_builder, b.cfg.length = 0 →
      builder_static_create_memory b = CreateResult.fail) ∧
    (∀ b : memtier_builder, b.cfg.length < 2 →
      builder_dynamic_create_memory b = CreateResult.fail) ∧
    (∀ b : memtier_builder, b.cfg.length ≠ 2 →
      builder_hot_create_memory b = CreateResult.fatalExit) := by
  refine ⟨?_, ?_, ?_⟩
  · intro b hb
    rw [builder_static_create_memory, memtier_memory_init, if_pos hb]
  · intro b hb
    rw [builder_dynamic_create_memory, if_pos hb]
  · intro b hb
    rw [builder_hot_create_memory]
    by_cases h0 : b.cfg.length = 0
    · rw [memtier_memory_init, if_pos h0]
    · rw [memtier_memory_init, if_neg h0]
      simp only
      rw [if_pos hb]

/-- Claim C9 witness: the amended theorem at the empty builder (static and
dynamic reject) and the one-tier builder (data hotness is fatal). -/
theorem claim_C9_witness :
    builder_static_create_memory builderEmpty = CreateResult.fail ∧
    builder_dynamic_create_memory builderEmpty = CreateResult.fail ∧
    builder_hot_create_memory builderC9 = CreateResult.fatalExit :=
  ⟨claim_C9_amended.1 builderEmpty rfl,
   claim_C9_amended.2.1 builderEmpty (of_decide_eq_true (by with_unfolding_all rfl)),
   claim_C9_amended.2.2 builderC9 (of_decide_eq_true (by with_unfolding_all rfl))⟩

theorem ranking_remove_relaxed_spec (r : ranking) (e : ttype) :
    (ranking_remove_internal_relaxed r e).1 ≤ e.total_size ∧
    ranking_calculate_total_size (ranking_remove_internal_relaxed r e).2 +
      (ranking_remove_internal_relaxed r e).1 = ranking_calculate_total_size r := by
  cases hfst : (wre_remove r.entries (ranking_quantify_hotness e.f)).1 with
  | none =>
      rw [ranking_remove_internal_relaxed]
      simp only [hfst]
      exact ⟨Nat.zero_le _, rfl⟩
  | some v =>
      have htot : wre_total_weight
          (wre_remove r.entries (ranking_quantify_hotness e.f)).2 + v.size =
          wre_total_weight r.entries :=
        wre_remove_total _ _ _ hfst
      rw [ranking_remove_internal_relaxed]
      simp only [hfst]
      by_cases hlt : v.size < e.total_size
      · simp only [if_pos hlt]
        refine ⟨Nat.le_of_lt hlt, ?_⟩
        show wre_total_weight
            (wre_remove r.entries (ranking_quantify_hotness e.f)).2 + v.size =
          wre_total_weight r.entries
        exact htot
      · simp only [if_neg hlt]
        by_cases hz : v.size - e.total_size = 0
        · simp only [if_pos hz]
          refine ⟨le_refl _, ?_⟩
          show wre_total_weight
              (wre_remove r.entries (ranking_quantify_hotness e.f)).2 +
              e.total_size = wre_total_weight r.entries
          omega
        · simp only [if_neg hz]
          refine ⟨le_refl _, ?_⟩
          show wre_total_weight (wre_put
              (wre_remove r.entries (ranking_quantify_hotness e.f)).2
              { size := v.size - e.total_size,
                quantifiedHotness := ranking_quantify_hotness e.f }) +
              e.total_size = wre_total_weight r.entries
          rw [wre_put_total]
          have hsz : (AggregatedHotness.mk (v.size - e.total_size)
              (ranking_quantify_hotness e.f)).size = v.size - e.total_size := rfl
          omega

theorem ranking_add_total (r : ranking) (hotness : ℚ) (size : ℕ)
    (hbound : ranking_calculate_total_size r + size < U64) :
    ranking_calculate_total_size (ranking_add_internal r hotness size) =
      ranking_calculate_total_size r + size := by
  cases hfst : (wre_remove r.entries (ranking_quantify_hotness hotness)).1 with
  | none =>
      have hsnd : (wre_remove r.entries (ranking_quantify_hotness hotness)).2 =
          r.entries := wre_remove_snd_of_none _ _ hfst
      rw [ranking_add_internal]
      simp only [hfst]
      by_cases hpos : 0 < size
      · simp only [if_pos hpos]
        show wre_total_weight (wre_put
            (wre_remove r.entries (ranking_quantify_hotness hotness)).2
            { size := size, quantifiedHotness := ranking_quantify_hotness hotness }) =
          wre_total_weight r.entries + size
        rw [wre_put_total, hsnd]
      · simp only [if_neg hpos]
        show wre_total_weight
            (wre_remove r.entries (ranking_quantify_hotness hotness)).2 =
          wre_total_weight r.entries + size
        rw [hsnd]
        omega
  | some v =>
      have htot : wre_total_weight
          (wre_remove r.entries (ranking_quantify_hotness hotness)).2 + v.size =
          wre_total_weight r.entries :=
        wre_remove_total _ _ _ hfst
      have hsize : v.size + size < U64 := by
        have hrt : ranking_calculate_total_size r = wre_total_weight r.entries := rfl
        omega
      have hmod : mod64 (v.size + size) = v.size + size := mod64_eq_self _ hsize
      rw [ranking_add_internal]
      simp only [hfst, hmod]
      by_cases hpos : 0 < v.size + size
      · simp only [if_pos hpos]
        show wre_total_weight (wre_put
            (wre_remove r.entries (ranking_quantify_hotness hotness)).2
            { size := v.size + size,
              quantifiedHotness := ranking_quantify_hotness hotness }) =
          wre_total_weight r.entries + size
        rw [wre_put_total]
        have hsz : (AggregatedHotness.mk (v.size + size)
            (ranking_quantify_hotness hotness)).size = v.size + size := rfl
        omega
      · simp only [if_neg hpos]
        show wre_total_weight
            (wre_remove r.entries (ranking_quantify_hotness hotness)).2 =
          wre_total_weight r.entries + size
        omega

/-- Claim C10: ranking_touch preserves the total aggregated size of the
tree.  The relaxed removal takes out at most the entry total_size from its
old bucket (exactly what is available when the bucket holds less, and
nothing when the bucket is missing), and exactly the removed amount is
re-added under the updated frequency.  The bound keeps the re-aggregation
inside size_t range, as for any state whose sizes count live bytes. -/
theorem claim_C10_touch_preserves_total (r : ranking) (e : ttype)
    (timestamp : ℕ) (add_hotness : ℚ)
    (hb : ranking_calculate_total_size r + e.total_size < U64) :
    ranking_calculate_total_size
        (ranking_touch_internal r e timestamp add_hotness).1 =
      ranking_calculate_total_size r := by
  rcases ranking_remove_relaxed_spec r e with ⟨hle, hsum⟩
  rw [ranking_touch_internal]
  simp only
  rw [ranking_add_total _ _ _ (by omega)]
  omega

/-- Claim C10 witness: the preservation theorem at the populated ranking of
size 3 and an entry whose bucket (key 1, aggregate 2) holds less than its
total_size 5. -/
theorem claim_C10_witness :
    ranking_calculate_total_size
        (ranking_touch_internal (rankingPopulate 3)
          { n1 := 0, n2 := 0, t0 := 0, t1 := 0, t2 := 0, f := 1,
            timestamp_state := TIMESTAMP_NOT_SET, total_size := 5 } 7 1).1 =
      ranking_calculate_total_size (rankingPopulate 3) :=
  claim_C10_touch_preserves_total (rankingPopulate 3)
    { n1 := 0, n2 := 0, t0 := 0, t1 := 0, t2 := 0, f := 1,
      timestamp_state := TIMESTAMP_NOT_SET, total_size := 5 } 7 1
    (of_decide_eq_true (by with_unfolding_all rfl))
